import Mathlib

/-!
# A shallow embedding of the rynzland toolchain-pool core

This file embeds the core data model and operations of the rynzland
repository (`src/toolchain.rs`, `src/gc.rs`, `src/util.rs`, `src/lib.rs`,
`src/main.rs`) in Lean 4 and proves properties about them.

Conventions of the embedding:

* Machine integers (`u64`) are `Nat` with explicit reduction modulo `2 ^ 64`
  where the Rust code relies on wrapping arithmetic.
* `BTreeSet<String>` is a strictly sorted, duplicate-free `List String`
  together with the insertion/removal functions of the ordered-set API;
  iteration order is the list order, exactly as a B-tree iterates in
  ascending key order.
* Filesystem state is a record of association lists: the pool directory
  (entry name to toolchain content), the links directory (link name to the
  file name of the link's target) and the set of staged in-flight markers.
* External collaborators (the installer binary, the network resolver, the
  pool lock, reading the links directory) are oracles passed in as
  `Except`-valued parameters; the trace of external calls an operation
  makes is returned as an event list.
-/

namespace Rynzland

set_option maxRecDepth 20000

/-- Decidable equality for `Except` results, used to evaluate the models
on concrete inputs. -/
instance {ε α : Type} [DecidableEq ε] [DecidableEq α] : DecidableEq (Except ε α) := fun a b =>
  match a, b with
  | .error x, .error y =>
    if h : x = y then .isTrue (congrArg Except.error h)
    else .isFalse (fun hh => h (Except.error.inj hh))
  | .error _, .ok _ => .isFalse (fun hh => Except.noConfusion hh)
  | .ok _, .error _ => .isFalse (fun hh => Except.noConfusion hh)
  | .ok x, .ok y =>
    if h : x = y then .isTrue (congrArg Except.ok h)
    else .isFalse (fun hh => h (Except.ok.inj hh))

/-! ## 64-bit arithmetic helpers -/

/-- `2 ^ 64`, the modulus of all `u64` arithmetic. -/
def M64 : Nat := 18446744073709551616

def add64 (a b : Nat) : Nat := (a + b) % M64

def mul64 (a b : Nat) : Nat := (a * b) % M64

/-- Wrapping subtraction on `u64`. -/
def sub64 (a b : Nat) : Nat := (a % M64 + M64 - b % M64) % M64

def xor64 (a b : Nat) : Nat := a ^^^ b

/-- Left rotation of a `u64` by `r` bits (`0 < r < 64`). -/
def rotl64 (x r : Nat) : Nat := ((x <<< r) % M64) ||| (x >>> (64 - r))

/-! ## XXH64

The identity function in `src/toolchain.rs` uses `twox_hash::XxHash64`
with a fixed seed.  This is the reference XXH64 algorithm; we embed it on
byte lists (`List Nat`, each element a byte).  The stripe loops are
written with an explicit fuel argument (initialised to the length of the
remaining input, which always suffices) so that every definition is
structurally recursive and reduces inside the kernel. -/

def xxPrime1 : Nat := 0x9E3779B185EBCA87
def xxPrime2 : Nat := 0xC2B2AE3D27D4EB4F
def xxPrime3 : Nat := 0x165667B19E3779F9
def xxPrime4 : Nat := 0x85EBCA77C2B2AE63
def xxPrime5 : Nat := 0x27D4EB2F165667C5

/-- Little-endian value of a byte list. -/
def leVal : List Nat → Nat
  | [] => 0
  | b :: bs => b + 256 * leVal bs

def readLE64 (bs : List Nat) : Nat := leVal (bs.take 8)

def readLE32 (bs : List Nat) : Nat := leVal (bs.take 4)

def xxRound (acc lane : Nat) : Nat :=
  mul64 (rotl64 (add64 acc (mul64 lane xxPrime2)) 31) xxPrime1

def xxMergeRound (h v : Nat) : Nat :=
  add64 (mul64 (xor64 h (xxRound 0 v)) xxPrime1) xxPrime4

/-- The 32-byte stripe loop: consume stripes while at least 32 bytes remain. -/
def xxBulk : Nat → Nat × Nat × Nat × Nat → List Nat → (Nat × Nat × Nat × Nat) × List Nat
  | 0, vs, bs => (vs, bs)
  | fuel + 1, (v1, v2, v3, v4), bs =>
    if bs.length < 32 then ((v1, v2, v3, v4), bs)
    else
      xxBulk fuel
        (xxRound v1 (readLE64 bs), xxRound v2 (readLE64 (bs.drop 8)),
          xxRound v3 (readLE64 (bs.drop 16)), xxRound v4 (readLE64 (bs.drop 24)))
        (bs.drop 32)

/-- The 8-byte tail loop. -/
def xxTail8 : Nat → Nat → List Nat → Nat × List Nat
  | 0, h, bs => (h, bs)
  | fuel + 1, h, bs =>
    if bs.length < 8 then (h, bs)
    else
      xxTail8 fuel
        (add64 (mul64 (rotl64 (xor64 h (xxRound 0 (readLE64 bs))) 27) xxPrime1) xxPrime4)
        (bs.drop 8)

/-- The final byte-by-byte tail loop. -/
def xxTail1 : List Nat → Nat → Nat
  | [], h => h
  | b :: bs, h => xxTail1 bs (mul64 (rotl64 (xor64 h (mul64 b xxPrime5)) 11) xxPrime1)

def xxAvalanche (h : Nat) : Nat :=
  let h1 := mul64 (xor64 h (h >>> 33)) xxPrime2
  let h2 := mul64 (xor64 h1 (h1 >>> 29)) xxPrime3
  xor64 h2 (h2 >>> 32)

/-- XXH64 of a byte stream with the given seed. -/
def xxh64 (seed : Nat) (input : List Nat) : Nat :=
  let len := input.length
  let hrest : Nat × List Nat :=
    if 32 ≤ len then
      let br :=
        xxBulk len
          (add64 (add64 seed xxPrime1) xxPrime2, add64 seed xxPrime2, seed % M64,
            sub64 seed xxPrime1)
          input
      let v1 := br.1.1
      let v2 := br.1.2.1
      let v3 := br.1.2.2.1
      let v4 := br.1.2.2.2
      let h :=
        add64 (add64 (add64 (rotl64 v1 1) (rotl64 v2 7)) (rotl64 v3 12)) (rotl64 v4 18)
      (xxMergeRound (xxMergeRound (xxMergeRound (xxMergeRound h v1) v2) v3) v4, br.2)
    else (add64 seed xxPrime5, input)
  let h0 := add64 hrest.1 len
  let t8 := xxTail8 hrest.2.length h0 hrest.2
  let t4 : Nat × List Nat :=
    if 4 ≤ t8.2.length then
      (add64 (mul64 (rotl64 (xor64 t8.1 (mul64 (readLE32 t8.2) xxPrime1)) 23) xxPrime2)
          xxPrime3,
        t8.2.drop 4)
    else t8
  xxAvalanche (xxTail1 t4.2 t4.1)

/-! ## The hash encoder (`HashEncoder::encode` in `src/util.rs`)

`encode` renders a `u64` hash in a 32-symbol alphabet through
`base_x::encode` over the hash's big-endian bytes, then left-pads the
result with the alphabet's zero symbol to width
`ceil(64 / log2 32) = 13`.  `base_x` emits one zero symbol per leading
zero byte followed by the base-32 digits of the value (no digits for
zero). -/

/-- `HashEncoder::ALPHABET`: digits plus lowercase letters excluding
`i`, `l`, `o`, `g`. -/
def hashAlphabet : List Char := "0123456789abcdefhjkmnqprstuvwxyz".data

/-- `u64::to_be_bytes`. -/
def toBEBytes (n : Nat) : List Nat :=
  [n >>> 56 % 256, n >>> 48 % 256, n >>> 40 % 256, n >>> 32 % 256,
    n >>> 24 % 256, n >>> 16 % 256, n >>> 8 % 256, n % 256]

def leadingZeroCount : List Nat → Nat
  | [] => 0
  | b :: bs => if b = 0 then leadingZeroCount bs + 1 else 0

/-- Big-endian value of a byte list. -/
def beVal : List Nat → Nat
  | [] => 0
  | b :: bs => b * 256 ^ bs.length + beVal bs

def digits32Aux : Nat → Nat → List Nat → List Nat
  | 0, _, acc => acc
  | fuel + 1, n, acc => if n = 0 then acc else digits32Aux fuel (n / 32) (n % 32 :: acc)

/-- Big-endian base-32 digit list of `n`; empty for `0`, as in `base_x`. -/
def digits32 (n : Nat) : List Nat := digits32Aux n n []

/-- `base_x::encode` over the given bytes with the 32-symbol alphabet. -/
def baseXEncode (bytes : List Nat) : List Char :=
  List.replicate (leadingZeroCount bytes) '0' ++
    (digits32 (beVal bytes)).map (fun d => hashAlphabet.getD d '0')

/-- `HashEncoder::encode`: base-X encode the big-endian bytes of the hash,
then left-pad with the zero symbol to width 13. -/
def hashEncode (h : Nat) : String :=
  let raw := baseXEncode (toBEBytes h)
  String.mk (List.replicate (13 - raw.length) '0' ++ raw)

/-! ## Byte streams fed to the hashers

`IdentifiableToolchain::id` hashes the UTF-8 bytes of the version string,
and hashes the component `BTreeSet<String>` through Rust's `Hash`
protocol: the set writes its length (8 bytes, little endian on the
supported targets), then each element in ascending order writes its UTF-8
bytes followed by the `0xff` terminator byte. -/

/-- UTF-8 encoding of one scalar value. -/
def charUtf8 (c : Char) : List Nat :=
  let n := c.toNat
  if n < 128 then [n]
  else if n < 2048 then [192 + n / 64, 128 + n % 64]
  else if n < 65536 then [224 + n / 4096, 128 + n / 64 % 64, 128 + n % 64]
  else [240 + n / 262144, 128 + n / 4096 % 64, 128 + n / 64 % 64, 128 + n % 64]

/-- UTF-8 bytes of a string. -/
def strBytes (s : String) : List Nat := (s.data.map charUtf8).flatten

/-- `usize::to_ne_bytes` on the 64-bit little-endian targets. -/
def leBytes8 (n : Nat) : List Nat :=
  [n % 256, n >>> 8 % 256, n >>> 16 % 256, n >>> 24 % 256,
    n >>> 32 % 256, n >>> 40 % 256, n >>> 48 % 256, n >>> 56 % 256]

/-! ## The `BTreeSet<String>` model

A `BTreeSet<String>` is represented by its ascending, duplicate-free
element list.  `sinsert` and `serase` are `BTreeSet::insert` and
`BTreeSet::remove`; `mkSet` is `collect()` from an arbitrary iterator.
The order is Rust's `Ord for String`, i.e. lexicographic on the bytes,
which on UTF-8 strings coincides with lexicographic comparison of the
scalar values. -/

/-- Lexicographic strict order on character lists by scalar value. -/
def charsLtB : List Char → List Char → Bool
  | [], [] => false
  | [], _ :: _ => true
  | _ :: _, [] => false
  | a :: as, b :: bs =>
    if a.toNat < b.toNat then true
    else if b.toNat < a.toNat then false
    else charsLtB as bs

/-- Rust's `Ord for String` (byte/scalar-value lexicographic order). -/
def strLtB (a b : String) : Bool := charsLtB a.data b.data

/-- Ordered-set insertion into a sorted duplicate-free list. -/
def sinsert (x : String) : List String → List String
  | [] => [x]
  | y :: ys =>
    if strLtB x y then x :: y :: ys else if x = y then y :: ys else y :: sinsert x ys

/-- Ordered-set removal. -/
def serase (x : String) (l : List String) : List String :=
  l.filter (fun y => decide (y ≠ x))

/-- Collect a list of strings into the ordered-set representation. -/
def mkSet (l : List String) : List String := l.foldl (fun acc x => sinsert x acc) []

/-- The canonical-form invariant of the `BTreeSet` representation:
strictly ascending in the byte order. -/
def strOrdered (l : List String) : Prop := l.Pairwise (fun a b => strLtB a b = true)

instance (l : List String) : Decidable (strOrdered l) := by
  unfold strOrdered; infer_instance

/-! ## `IdentifiableToolchain` and its identity (`src/toolchain.rs`) -/

/-- `IdentifiableToolchain`: the version from the channel manifest and the
component set (lines 27-36 of `src/toolchain.rs`).  `components` is the
`BTreeSet` in its canonical ascending representation. -/
structure IdentifiableToolchain where
  rust_ver : String
  components : List String
deriving DecidableEq, Repr

/-- `IdentifiableToolchain::SEED`. -/
def SEED : Nat := 0xfeedc0011ced7ea5

/-- The leading run of digit/dot characters of the version string
(`src/toolchain.rs` lines 88-92; the byte-level `take_while` coincides
with the character-level one because the accepted bytes are ASCII and the
cut point is always a character boundary). -/
def shortVer (ver : String) : String :=
  String.mk (ver.data.takeWhile (fun c => ".0123456789".data.contains c))

/-- `IdentifiableToolchain::id` (lines 85-110 of `src/toolchain.rs`). -/
def IdentifiableToolchain.id (t : IdentifiableToolchain) : String :=
  let sv := shortVer t.rust_ver
  let pre := if sv = "" then "unknown-" else sv ++ "-"
  pre ++ hashEncode (xxh64 SEED (strBytes t.rust_ver)) ++ "-" ++
    hashEncode (xxh64 SEED (leBytes8 t.components.length ++
      (t.components.map (fun s => strBytes s ++ [255])).flatten))

/-- The identity of a toolchain whose component collection is given as a
raw list (as `resolve_channel` and `IdentifiableToolchain::new` build it,
collecting into the `BTreeSet`). -/
def identityOfList (ver : String) (comps : List String) : String :=
  IdentifiableToolchain.id ⟨ver, mkSet comps⟩

/-! ## Path helpers (`src/util.rs`, `src/main.rs`) -/

/-- `qualify_with_target`: append `-<target>` unless already suffixed
(`src/util.rs` lines 57-63). -/
def qualify_with_target (target s : String) : String :=
  if (("-" ++ target).data).isSuffixOf s.data then s else s ++ "-" ++ target

/-- `with_tmp` (`src/util.rs` lines 88-92): push the fixed suffix `.tmp`
onto the whole path string. -/
def with_tmp (p : String) : String := p ++ ".tmp"

/-- Rust's `Path::set_extension` at the file-name level: if the name has
an embedded dot past its first character, everything after the last dot
is replaced by `ext`; otherwise `.ext` is appended. -/
def rustSetExtension (name ext : String) : String :=
  if '.' ∈ name.data.drop 1 then
    String.mk (((name.data.reverse.dropWhile (fun c => decide (c ≠ '.'))).drop 1).reverse) ++
      "." ++ ext
  else name ++ "." ++ ext

/-- The in-flight marker path staged by `AddSubcmd::run` in `src/main.rs`
(lines 216-217): `link_in_flight.set_extension("tmp")`. -/
def mainInFlight (name : String) : String := rustSetExtension name "tmp"

/-! ## The garbage collector, trace model (`src/gc.rs`)

`Ctx::gc` is embedded as a function of its external interactions: the
pool lock acquisition, reading the links directory, and the external
uninstall invocation are oracles, and the returned event list records, in
order, which of those interactions the function performed.  A directory
entry is `some target` when it can be read as a soft link with the given
target path (a path is its component list), and `none` otherwise. -/

inductive GcErr where
  | lockFailed
  | readDirFailed
  | uninstallFailed (tc : String)
deriving DecidableEq, Repr

inductive GcEvent where
  | lockAcquire
  | scanLinks
  | uninstall (tc : String)
deriving DecidableEq, Repr

/-- The loop body of the referenced-set scan, with the accumulated
`HashSet` represented as a duplicate-free list. -/
def collectRefGo : List String → List (Option (List String)) → List String
  | acc, [] => acc
  | acc, e :: es =>
    match e with
    | some target =>
      match target.getLast? with
      | some name => collectRefGo (if name ∈ acc then acc else name :: acc) es
      | none => collectRefGo acc es
    | none => collectRefGo acc es

/-- The referenced-set scan (`src/gc.rs` lines 40-48): for every directory
entry that reads as a soft link and whose target has a file name, insert
that file name. -/
def collectReferenced (entries : List (Option (List String))) : List String :=
  collectRefGo [] entries

/-- The removal loop: invoke the external uninstall on each victim in
order, propagating the first failure (`rm(tc)?`). -/
def sweepWith (uninstall : String → Except GcErr Unit) : List String → Except GcErr Unit × List GcEvent
  | [] => (.ok (), [])
  | c :: cs =>
    match uninstall c with
    | .error e => (.error e, [.uninstall c])
    | .ok _ =>
      let r := sweepWith uninstall cs
      (r.1, .uninstall c :: r.2)

/-- `Ctx::gc` (`src/gc.rs` lines 20-72).  `candidates = none` is the
`None` case; a provided candidate list stands for the iterator collected
into the candidate `HashSet` (hence `dedup`). -/
def gcRun (lockRes : Except GcErr Unit)
    (dirRes : Except GcErr (List (Option (List String))))
    (uninstall : String → Except GcErr Unit) (candidates : Option (List String)) :
    Except GcErr Unit × List GcEvent :=
  let cset := candidates.map List.dedup
  if cset = some [] then (.ok (), [])
  else
    match lockRes with
    | .error e => (.error e, [.lockAcquire])
    | .ok _ =>
      match dirRes with
      | .error e => (.error e, [.lockAcquire, .scanLinks])
      | .ok entries =>
        let referenced := collectReferenced entries
        let victims :=
          match cset with
          | none => referenced
          | some cs => cs.filter (fun c => decide (c ∉ referenced))
        let s := sweepWith uninstall victims
        (s.1, .lockAcquire :: .scanLinks :: s.2)

/-! ## The filesystem state model (`src/lib.rs`)

`AddSubcmd::run`, `Ctx::modify_components` and the `toolchain::gc` call
they end with are embedded as functions on a record of the relevant
directories.  Link targets are recorded by the file name of the target
path (which is all the code ever reads back).  The fallible external
steps (channel resolution, `rustup install`, the clone-plus-component-edit
construction) are oracle parameters; the event list records the external
mutating calls that were made.  The external uninstall inside this
state-level `gc` is modelled as succeeding and removing the pool entry;
the effect of the external component edit on a cloned entry is modelled
per its interface contract: the copy's component set becomes the
requested set. -/

structure FsState where
  pool : List (String × IdentifiableToolchain)
  links : List (String × String)
  markers : List (String × String)
deriving DecidableEq, Repr

inductive OpErr where
  | markerExists
  | linkUnresolved
  | entryUnreadable
  | externalFailed
deriving DecidableEq, Repr

inductive OpEvent where
  | install
  | cloneEdit
  | uninstall (tc : String)
deriving DecidableEq, Repr

/-- First-match association-list lookup (symbolic directory lookup). -/
def lookupKey (k : String) : List (String × α) → Option α
  | [] => none
  | (k', v) :: l => if k = k' then some v else lookupKey k l

def eraseKey (k : String) (l : List (String × α)) : List (String × α) :=
  l.filter (fun p => decide (p.1 ≠ k))

/-- Bind key `k` to `v`, replacing any previous binding (the commit rename
over an existing link). -/
def setAssoc (k : String) (v : α) (l : List (String × α)) : List (String × α) :=
  (k, v) :: eraseKey k l

/-- `toolchain::gc` at the state level (`src/toolchain.rs` lines 116-160 /
`src/gc.rs` lines 20-72): scan the links for the referenced file names
and uninstall every candidate not referenced. -/
def gcSweep (st : FsState) (cands : List String) : FsState × List OpEvent :=
  if cands.dedup = [] then (st, [])
  else
    let referenced := st.links.map (fun p => p.2)
    let victims := cands.dedup.filter (fun c => decide (c ∉ referenced))
    ({ st with pool := victims.foldl (fun p c => eraseKey c p) st.pool },
      victims.map OpEvent.uninstall)

/-- The component delta of `Ctx::modify_components` (`src/lib.rs` lines
396-403): qualify each requested component and insert or remove it. -/
def newComponents (target : String) (add : Bool) (comps : List String)
    (c0 : List String) : List String :=
  comps.foldl
    (fun acc c =>
      let qc := qualify_with_target target c
      if add then sinsert qc acc else serase qc acc)
    c0

/-- `Ctx::modify_components` (`src/lib.rs` lines 384-456).  `editRes` is
the outcome of the clone-and-edit construction (the `copy_dir_all` plus
the external `rustup component add/remove` invocation). -/
def modifyComponents (target : String) (editRes : Except OpErr Unit) (st : FsState)
    (toolchain : String) (comps : List String) (add : Bool) :
    Except OpErr Unit × FsState × List OpEvent :=
  if comps = [] then (.ok (), st, [])
  else
    let link := qualify_with_target target toolchain
    match lookupKey link st.links with
    | none => (.error .linkUnresolved, st, [])
    | some oldId =>
      match lookupKey oldId st.pool with
      | none => (.error .entryUnreadable, st, [])
      | some t0 =>
        let t1 : IdentifiableToolchain :=
          ⟨t0.rust_ver, newComponents target add comps t0.components⟩
        let newId := t1.id
        if (lookupKey link st.markers).isSome then (.error .markerExists, st, [])
        else
          let st1 : FsState := { st with markers := (link, newId) :: st.markers }
          if (lookupKey newId st1.pool).isSome then
            let st2 : FsState :=
              ⟨st1.pool, setAssoc link newId st1.links, eraseKey link st1.markers⟩
            let g := gcSweep st2 [oldId]
            (.ok (), g.1, g.2)
          else
            match editRes with
            | .error e => (.error e, st1, [.cloneEdit])
            | .ok _ =>
              let st3 : FsState :=
                ⟨(newId, t1) :: st1.pool, setAssoc link newId st1.links,
                  eraseKey link st1.markers⟩
              let g := gcSweep st3 [oldId]
              (.ok (), g.1, g.2)

/-- `AddSubcmd::run` (`src/lib.rs` lines 240-291).  `resolveRes` is the
outcome of `resolve_channel` (network), `installRes` the outcome of the
external `rustup install` plus the rename into the pool. -/
def addRun (target : String) (resolveRes : Except OpErr IdentifiableToolchain)
    (installRes : Except OpErr Unit) (st : FsState)
    (toolchain : String) (_source : Option String) :
    Except OpErr Unit × FsState × List OpEvent :=
  let tc := qualify_with_target target toolchain
  match resolveRes with
  | .error e => (.error e, st, [])
  | .ok rt =>
    let newId := rt.id
    if (lookupKey tc st.markers).isSome then (.error .markerExists, st, [])
    else
      let st1 : FsState := { st with markers := (tc, newId) :: st.markers }
      let underlying := lookupKey tc st.links
      if (lookupKey newId st1.pool).isSome then
        let st3 : FsState :=
          ⟨st1.pool, setAssoc tc newId st1.links, eraseKey tc st1.markers⟩
        match underlying with
        | some u =>
          let g := gcSweep st3 [u]
          (.ok (), g.1, g.2)
        | none => (.ok (), st3, [])
      else
        match installRes with
        | .error e => (.error e, st1, [.install])
        | .ok _ =>
          let st3 : FsState :=
            ⟨(newId, rt) :: st1.pool, setAssoc tc newId st1.links,
              eraseKey tc st1.markers⟩
          match underlying with
          | some u =>
            let g := gcSweep st3 [u]
            (.ok (), g.1, .install :: g.2)
          | none => (.ok (), st3, [.install])

/-! ## Lemmas about the string order -/

theorem charsLtB_irrefl (l : List Char) : charsLtB l l = false := by
  induction l with
  | nil => rfl
  | cons a as ih => simp [charsLtB, Nat.lt_irrefl, ih]

theorem charsLtB_trans :
    ∀ (l1 l2 l3 : List Char), charsLtB l1 l2 = true → charsLtB l2 l3 = true →
      charsLtB l1 l3 = true
  | l1, [], _, h12, _ => by cases l1 <;> simp [charsLtB] at h12
  | _, _ :: _, [], _, h23 => by simp [charsLtB] at h23
  | [], _ :: _, _ :: _, _, _ => by simp [charsLtB]
  | a :: as, b :: bs, c :: cs, h12, h23 => by
    simp only [charsLtB] at h12 h23 ⊢
    by_cases hab : a.toNat < b.toNat
    · by_cases hbc : b.toNat < c.toNat
      · rw [if_pos (hab.trans hbc)]
      · by_cases hcb : c.toNat < b.toNat
        · rw [if_neg hbc, if_pos hcb] at h23
          exact absurd h23 (by simp)
        · rw [if_pos (show a.toNat < c.toNat by omega)]
    · by_cases hba : b.toNat < a.toNat
      · rw [if_neg hab, if_pos hba] at h12
        exact absurd h12 (by simp)
      · rw [if_neg hab, if_neg hba] at h12
        by_cases hbc : b.toNat < c.toNat
        · rw [if_pos (show a.toNat < c.toNat by omega)]
        · by_cases hcb : c.toNat < b.toNat
          · rw [if_neg hbc, if_pos hcb] at h23
            exact absurd h23 (by simp)
          · rw [if_neg hbc, if_neg hcb] at h23
            rw [if_neg (show ¬a.toNat < c.toNat by omega),
              if_neg (show ¬c.toNat < a.toNat by omega)]
            exact charsLtB_trans as bs cs h12 h23

theorem charsLtB_asymm :
    ∀ (l1 l2 : List Char), charsLtB l1 l2 = true → charsLtB l2 l1 = false
  | [], [], h => by simp [charsLtB] at h
  | [], _ :: _, _ => by simp [charsLtB]
  | _ :: _, [], h => by simp [charsLtB] at h
  | a :: as, b :: bs, h => by
    simp only [charsLtB] at h ⊢
    by_cases hab : a.toNat < b.toNat
    · rw [if_neg (show ¬b.toNat < a.toNat by omega), if_pos hab]
    · by_cases hba : b.toNat < a.toNat
      · rw [if_neg hab, if_pos hba] at h
        exact absurd h (by simp)
      · rw [if_neg hab, if_neg hba] at h
        rw [if_neg hba, if_neg hab]
        exact charsLtB_asymm as bs h

theorem charsLtB_total :
    ∀ (l1 l2 : List Char), charsLtB l1 l2 = false → charsLtB l2 l1 = false → l1 = l2
  | [], [], _, _ => rfl
  | [], b :: _, h12, _ => by simp [charsLtB] at h12
  | _ :: _, [], _, h21 => by simp [charsLtB] at h21
  | a :: as, b :: bs, h12, h21 => by
    simp only [charsLtB] at h12 h21
    by_cases hab : a.toNat < b.toNat
    · rw [if_pos hab] at h12
      exact absurd h12 (by simp)
    · by_cases hba : b.toNat < a.toNat
      · rw [if_pos hba] at h21
        exact absurd h21 (by simp)
      · rw [if_neg hab, if_neg hba] at h12
        rw [if_neg hba, if_neg hab] at h21
        have hd : a = b := by
          apply Char.ext
          apply UInt32.eq_of_val_eq
          apply Fin.ext
          show a.toNat = b.toNat
          omega
        rw [hd, charsLtB_total as bs h12 h21]

theorem strLtB_irrefl (a : String) : strLtB a a = false := charsLtB_irrefl a.data

theorem strLtB_trans {a b c : String} (h1 : strLtB a b = true) (h2 : strLtB b c = true) :
    strLtB a c = true := charsLtB_trans a.data b.data c.data h1 h2

theorem strLtB_asymm {a b : String} (h : strLtB a b = true) : strLtB b a = false :=
  charsLtB_asymm a.data b.data h

theorem strLtB_total {a b : String} (h1 : strLtB a b = false) (h2 : strLtB b a = false) :
    a = b := by
  cases a
  cases b
  exact congrArg String.mk (charsLtB_total _ _ h1 h2)


/-! ## Lemmas about the ordered-set operations -/

theorem mem_sinsert {a x : String} : ∀ {l : List String}, a ∈ sinsert x l ↔ a = x ∨ a ∈ l := by
  intro l
  induction l with
  | nil => simp [sinsert]
  | cons y ys ih =>
    simp only [sinsert]
    split
    · simp [List.mem_cons]
    · split
      · rename_i hxy
        subst hxy
        simp only [List.mem_cons]
        tauto
      · simp only [List.mem_cons, ih]
        tauto

theorem strOrdered_sinsert {x : String} :
    ∀ {l : List String}, strOrdered l → strOrdered (sinsert x l)
  | [], _ => by simp [sinsert, strOrdered]
  | y :: ys, h => by
    rcases List.pairwise_cons.mp h with ⟨hy, hys⟩
    simp only [sinsert]
    split
    · rename_i hxy
      refine List.pairwise_cons.mpr ⟨?_, h⟩
      intro z hz
      rcases List.mem_cons.mp hz with hzy | hz
      · subst hzy
        exact hxy
      · exact strLtB_trans hxy (hy z hz)
    · split
      · exact h
      · rename_i hnlt hne
        refine List.pairwise_cons.mpr ⟨?_, strOrdered_sinsert hys⟩
        intro z hz
        rcases mem_sinsert.mp hz with hzx | hz
        · subst hzx
          by_cases hyx : strLtB y z = true
          · exact hyx
          · exact absurd (strLtB_total (by simpa using hnlt) (by simpa using hyx)) hne
        · exact hy z hz

theorem mem_foldl_sinsert {a : String} :
    ∀ (l acc : List String), a ∈ l.foldl (fun ac x => sinsert x ac) acc ↔ a ∈ acc ∨ a ∈ l
  | [], acc => by simp
  | x :: xs, acc => by
    rw [List.foldl_cons, mem_foldl_sinsert xs]
    simp [mem_sinsert]
    tauto

theorem strOrdered_foldl_sinsert :
    ∀ (l acc : List String), strOrdered acc →
      strOrdered (l.foldl (fun ac x => sinsert x ac) acc)
  | [], _, h => h
  | x :: xs, acc, h => by
    rw [List.foldl_cons]
    exact strOrdered_foldl_sinsert xs _ (strOrdered_sinsert h)

theorem mem_mkSet {a : String} {l : List String} : a ∈ mkSet l ↔ a ∈ l := by
  rw [mkSet, mem_foldl_sinsert]
  simp

theorem strOrdered_mkSet (l : List String) : strOrdered (mkSet l) :=
  strOrdered_foldl_sinsert l [] (by simp [strOrdered])

/-- Two strictly sorted lists with the same members are equal. -/
theorem strOrdered_ext :
    ∀ {l1 l2 : List String}, strOrdered l1 → strOrdered l2 →
      (∀ x, x ∈ l1 ↔ x ∈ l2) → l1 = l2
  | [], [], _, _, _ => rfl
  | [], b :: _, _, _, hm => by
    exact absurd ((hm b).mpr (List.mem_cons_self b _)) (List.not_mem_nil b)
  | a :: _, [], _, _, hm => by
    exact absurd ((hm a).mp (List.mem_cons_self a _)) (List.not_mem_nil a)
  | a :: as, b :: bs, h1, h2, hm => by
    rcases List.pairwise_cons.mp h1 with ⟨ha, has⟩
    rcases List.pairwise_cons.mp h2 with ⟨hb, hbs⟩
    have hab : a = b := by
      rcases List.mem_cons.mp ((hm a).mp (List.mem_cons_self a _)) with rfl | ha2
      · rfl
      · rcases List.mem_cons.mp ((hm b).mpr (List.mem_cons_self b _)) with rfl | hb1
        · rfl
        · exact absurd (hb a ha2) (by simp [strLtB_asymm (ha b hb1)])
    subst hab
    have : as = bs := by
      apply strOrdered_ext has hbs
      intro x
      constructor
      · intro hx
        rcases List.mem_cons.mp ((hm x).mp (List.mem_cons_of_mem a hx)) with rfl | h
        · exact absurd (ha x hx) (by simp [strLtB_irrefl])
        · exact h
      · intro hx
        rcases List.mem_cons.mp ((hm x).mpr (List.mem_cons_of_mem a hx)) with rfl | h
        · exact absurd (hb x hx) (by simp [strLtB_irrefl])
        · exact h
    rw [this]

theorem serase_cons_self (x : String) (l : List String) :
    serase x (x :: l) = serase x l := by
  simp [serase, List.filter_cons]

theorem serase_cons_ne {x y : String} (h : y ≠ x) (l : List String) :
    serase x (y :: l) = y :: serase x l := by
  simp [serase, List.filter_cons, h]

theorem serase_of_not_mem {x : String} : ∀ {l : List String}, x ∉ l → serase x l = l := by
  intro l h
  induction l with
  | nil => rfl
  | cons y ys ih =>
    have hxy : y ≠ x := fun hh => h (hh ▸ List.mem_cons_self y ys)
    have hm : x ∉ ys := fun hh => h (List.mem_cons_of_mem y hh)
    rw [serase_cons_ne hxy, ih hm]

theorem serase_sinsert {x : String} : ∀ {l : List String}, x ∉ l → serase x (sinsert x l) = l := by
  intro l
  induction l with
  | nil =>
    intro _
    show serase x [x] = []
    simp [serase, List.filter_cons]
  | cons y ys ih =>
    intro h
    have hxy : ¬x = y := fun hh => h (hh ▸ List.mem_cons_self y ys)
    have hyx : y ≠ x := fun hh => hxy hh.symm
    have hm : x ∉ ys := fun hh => h (List.mem_cons_of_mem y hh)
    by_cases hlt : strLtB x y = true
    · rw [show sinsert x (y :: ys) = x :: y :: ys from by simp [sinsert, hlt]]
      rw [serase_cons_self, serase_of_not_mem h]
    · rw [show sinsert x (y :: ys) = y :: sinsert x ys from by simp [sinsert, hlt, hxy]]
      rw [serase_cons_ne hyx, ih hm]

theorem sinsert_ne_self {x : String} {l : List String} (h : x ∉ l) : sinsert x l ≠ l :=
  fun he => h (he ▸ mem_sinsert.mpr (Or.inl rfl))

/-! ## Lemmas about the garbage-collector trace model -/

theorem sweepWith_all_ok (u : String → Except GcErr Unit) :
    ∀ {l : List String}, (∀ c ∈ l, u c = .ok ()) →
      sweepWith u l = (.ok (), l.map GcEvent.uninstall) := by
  intro l h
  induction l with
  | nil => rfl
  | cons c cs ih =>
    have hc := h c (List.mem_cons_self c cs)
    have hcs := ih (fun a ha => h a (List.mem_cons_of_mem c ha))
    simp [sweepWith, hc, hcs]

theorem sweepWith_prefix_fail (u : String → Except GcErr Unit) {e : GcErr} {c : String} :
    ∀ (l1 : List String) (l2 : List String), (∀ a ∈ l1, u a = .ok ()) → u c = .error e →
      sweepWith u (l1 ++ c :: l2) = (.error e, (l1 ++ [c]).map GcEvent.uninstall) := by
  intro l1
  induction l1 with
  | nil =>
    intro l2 _ hc
    simp [sweepWith, hc]
  | cons a l1 ih =>
    intro l2 h hc
    have ha := h a (List.mem_cons_self a l1)
    have hrec := ih l2 (fun b hb => h b (List.mem_cons_of_mem a hb)) hc
    simp [sweepWith, ha, hrec]

theorem mem_collectRefGo {x : String} :
    ∀ (es : List (Option (List String))) (acc : List String),
      x ∈ collectRefGo acc es ↔ x ∈ acc ∨ ∃ t, some t ∈ es ∧ t.getLast? = some x := by
  intro es
  induction es with
  | nil => simp [collectRefGo]
  | cons e es ih =>
    intro acc
    match e with
    | none =>
      rw [show collectRefGo acc (none :: es) = collectRefGo acc es from rfl, ih]
      constructor
      · rintro (h | ⟨t', ht', hx⟩)
        · exact Or.inl h
        · exact Or.inr ⟨t', List.mem_cons_of_mem _ ht', hx⟩
      · rintro (h | ⟨t', ht', hx⟩)
        · exact Or.inl h
        · rcases List.mem_cons.mp ht' with he | he
          · exact absurd he (by simp)
          · exact Or.inr ⟨t', he, hx⟩
    | some t =>
      rcases hgl : t.getLast? with _ | n
      · rw [show collectRefGo acc (some t :: es) = collectRefGo acc es from by
          simp [collectRefGo, hgl], ih]
        constructor
        · rintro (h | ⟨t', ht', hx⟩)
          · exact Or.inl h
          · exact Or.inr ⟨t', List.mem_cons_of_mem _ ht', hx⟩
        · rintro (h | ⟨t', ht', hx⟩)
          · exact Or.inl h
          · rcases List.mem_cons.mp ht' with he | he
            · have : t' = t := by injection he
              subst this
              rw [hgl] at hx
              exact absurd hx (by simp)
            · exact Or.inr ⟨t', he, hx⟩
      · rw [show collectRefGo acc (some t :: es) =
            collectRefGo (if n ∈ acc then acc else n :: acc) es from by
          simp [collectRefGo, hgl], ih]
        by_cases hmem : n ∈ acc
        · rw [if_pos hmem]
          constructor
          · rintro (h | ⟨t', ht', hx⟩)
            · exact Or.inl h
            · exact Or.inr ⟨t', List.mem_cons_of_mem _ ht', hx⟩
          · rintro (h | ⟨t', ht', hx⟩)
            · exact Or.inl h
            · rcases List.mem_cons.mp ht' with he | he
              · have : t' = t := by injection he
                subst this
                rw [hgl] at hx
                have hnx : n = x := by injection hx
                exact Or.inl (hnx ▸ hmem)
              · exact Or.inr ⟨t', he, hx⟩
        · rw [if_neg hmem]
          constructor
          · rintro (h | ⟨t', ht', hx⟩)
            · rcases List.mem_cons.mp h with rfl | h
              · exact Or.inr ⟨t, List.mem_cons_self _ _, by rw [hgl]⟩
              · exact Or.inl h
            · exact Or.inr ⟨t', List.mem_cons_of_mem _ ht', hx⟩
          · rintro (h | ⟨t', ht', hx⟩)
            · exact Or.inl (List.mem_cons_of_mem _ h)
            · rcases List.mem_cons.mp ht' with he | he
              · have : t' = t := by injection he
                subst this
                rw [hgl] at hx
                have hnx : n = x := by injection hx
                exact Or.inl (hnx ▸ List.mem_cons_self n acc)
              · exact Or.inr ⟨t', he, hx⟩

theorem mem_collectReferenced {x : String} {entries : List (Option (List String))} :
    x ∈ collectReferenced entries ↔ ∃ t, some t ∈ entries ∧ t.getLast? = some x := by
  rw [collectReferenced, mem_collectRefGo]
  simp

theorem collectRefGo_filter :
    ∀ (es : List (Option (List String))) (acc : List String),
      collectRefGo acc (es.filter Option.isSome) = collectRefGo acc es := by
  intro es
  induction es with
  | nil => intro acc; rfl
  | cons e es ih =>
    intro acc
    match e with
    | none => simp [List.filter_cons, collectRefGo, ih]
    | some t => simp [List.filter_cons, collectRefGo, ih]

theorem collectReferenced_filter (entries : List (Option (List String))) :
    collectReferenced (entries.filter Option.isSome) = collectReferenced entries :=
  collectRefGo_filter entries []

theorem gcRun_some_ok (entries : List (Option (List String)))
    (u : String → Except GcErr Unit) {cs : List String} (hne : cs ≠ []) :
    gcRun (.ok ()) (.ok entries) u (some cs) =
      ((sweepWith u (cs.dedup.filter (fun c => decide (c ∉ collectReferenced entries)))).1,
        .lockAcquire :: .scanLinks ::
          (sweepWith u (cs.dedup.filter (fun c => decide (c ∉ collectReferenced entries)))).2) := by
  have hd : ¬(cs.dedup = []) := by
    simpa [List.dedup_eq_nil] using hne
  simp [gcRun, hd]

/-! ## The claims about the garbage collector -/

/-- C1: for every non-empty candidate set `C`, `gc(C)` invokes the
external uninstall operation exactly on the members of `C` that are not
in the referenced set (the file names of the targets of the soft links in
the links directory), and a candidate that is still referenced is skipped
without raising an error. -/
theorem gc_candidates_exact_sweep (entries : List (Option (List String)))
    (u : String → Except GcErr Unit) (cs : List String) (hne : cs ≠ [])
    (hok : ∀ c ∈ cs, c ∉ collectReferenced entries → u c = .ok ()) :
    (gcRun (.ok ()) (.ok entries) u (some cs)).1 = .ok () ∧
    ∀ c, GcEvent.uninstall c ∈ (gcRun (.ok ()) (.ok entries) u (some cs)).2 ↔
      (c ∈ cs ∧ c ∉ collectReferenced entries) := by
  rw [gcRun_some_ok entries u hne]
  have hsw : sweepWith u (cs.dedup.filter (fun c => decide (c ∉ collectReferenced entries))) =
      (.ok (), (cs.dedup.filter (fun c => decide (c ∉ collectReferenced entries))).map
        GcEvent.uninstall) := by
    apply sweepWith_all_ok
    intro c hc
    rcases List.mem_filter.mp hc with ⟨hcd, hdec⟩
    exact hok c (List.mem_dedup.mp hcd) (of_decide_eq_true hdec)
  rw [hsw]
  refine ⟨rfl, ?_⟩
  intro c
  simp only [List.mem_cons]
  constructor
  · rintro (h | h | h)
    · simp at h
    · simp at h
    · rcases List.mem_map.mp h with ⟨a, ha, hea⟩
      have hac : a = c := by injection hea
      subst hac
      rcases List.mem_filter.mp ha with ⟨hcd, hdec⟩
      exact ⟨List.mem_dedup.mp hcd, of_decide_eq_true hdec⟩
  · rintro ⟨hmem, href⟩
    refine Or.inr (Or.inr (List.mem_map.mpr ⟨c, ?_, rfl⟩))
    exact List.mem_filter.mpr ⟨List.mem_dedup.mpr hmem, decide_eq_true href⟩

theorem gc_candidates_exact_sweep_witness :
    (gcRun (.ok ()) (.ok [some ["pool", "bb"]]) (fun _ => .ok ()) (some ["aa", "bb"])).1 =
      .ok () ∧
    ∀ c, GcEvent.uninstall c ∈
        (gcRun (.ok ()) (.ok [some ["pool", "bb"]]) (fun _ => .ok ()) (some ["aa", "bb"])).2 ↔
      (c ∈ ["aa", "bb"] ∧ c ∉ collectReferenced [some ["pool", "bb"]]) :=
  gc_candidates_exact_sweep _ _ _ (by simp) (fun _ _ _ => rfl)

/-- C2: the claim says `gc(None)` removes exactly the pool entries no
longer referenced by any link.  The code does the opposite: with no
candidate restriction it uninstalls exactly the *referenced* set and
never touches unreferenced entries (which its own documentation and the
claim require it to remove).  At the failing input below (one link whose
target's file name is `A`), gc uninstalls the still-referenced `A` and
never attempts anything else. -/
theorem gc_none_uninstalls_referenced_eval :
    gcRun (.ok ()) (.ok [some ["pool", "A"]]) (fun _ => .ok ()) none =
      (.ok (), [.lockAcquire, .scanLinks, .uninstall "A"]) ∧
    GcEvent.uninstall "B" ∉ (gcRun (.ok ()) (.ok [some ["pool", "A"]]) (fun _ => .ok ()) none).2 :=
  ⟨rfl, by decide⟩

/-- C7 counterexample: with two unreferenced candidates whose uninstalls
both fail, gc aborts at the first failure; the second candidate is never
attempted, contradicting the best-effort-sweep claim. -/
theorem gc_sweep_not_best_effort_counterexample :
    (gcRun (.ok ()) (.ok []) (fun c => .error (.uninstallFailed c)) (some ["aa", "bb"])).1 =
      .error (.uninstallFailed "aa") ∧
    GcEvent.uninstall "bb" ∉
      (gcRun (.ok ()) (.ok []) (fun c => .error (.uninstallFailed c)) (some ["aa", "bb"])).2 :=
  ⟨rfl, by decide⟩

/-- C7 amended: when the uninstall of a candidate fails, gc propagates
that error immediately (the `rm(tc)?` loop): it returns the error after
attempting exactly the candidates up to and including the failing one,
and the candidates after it in iteration order are not attempted. -/
theorem gc_sweep_aborts_on_first_failure (entries : List (Option (List String)))
    (u : String → Except GcErr Unit) (cs l1 l2 : List String) (c : String) (e : GcErr)
    (hne : cs ≠ [])
    (hsplit : cs.dedup.filter (fun a => decide (a ∉ collectReferenced entries)) =
      l1 ++ c :: l2)
    (h1 : ∀ a ∈ l1, u a = .ok ()) (hc : u c = .error e) :
    gcRun (.ok ()) (.ok entries) u (some cs) =
      (.error e, .lockAcquire :: .scanLinks :: (l1 ++ [c]).map GcEvent.uninstall) := by
  rw [gcRun_some_ok entries u hne, hsplit, sweepWith_prefix_fail u l1 l2 h1 hc]

theorem gc_sweep_aborts_on_first_failure_witness :
    gcRun (.ok ()) (.ok []) (fun a => .error (.uninstallFailed a)) (some ["aa", "bb"]) =
      (.error (.uninstallFailed "aa"),
        .lockAcquire :: .scanLinks :: (([] : List String) ++ ["aa"]).map GcEvent.uninstall) :=
  gc_sweep_aborts_on_first_failure [] _ ["aa", "bb"] [] ["bb"] "aa" _ (by simp) (by decide)
    (fun a ha => absurd ha (List.not_mem_nil a)) rfl

/-- C8: a provided but empty candidate set makes gc return `Ok`
immediately as a no-op: the event trace is empty, so the pool lock is
not acquired, the links directory is not scanned, and no uninstall is
invoked. -/
theorem gc_empty_candidates_noop (lockRes : Except GcErr Unit)
    (dirRes : Except GcErr (List (Option (List String))))
    (u : String → Except GcErr Unit) :
    gcRun lockRes dirRes u (some []) = (.ok (), []) := rfl

/-- C10: the referenced set is built from only the final path component
of each link target: a candidate is protected from removal exactly when
some directory entry is a readable soft link whose target's file name
equals the candidate, regardless of the directory that target lies in;
and entries that cannot be read as soft links are silently skipped (the
scan gives the same result with them removed). -/
theorem gc_referenced_by_target_file_name (entries : List (Option (List String)))
    (cs : List String) (c : String) (hc : c ∈ cs) :
    (∀ (lockRes : Except GcErr Unit) (u : String → Except GcErr Unit)
        (cands : Option (List String)),
      gcRun lockRes (.ok (entries.filter Option.isSome)) u cands =
        gcRun lockRes (.ok entries) u cands) ∧
    (GcEvent.uninstall c ∈ (gcRun (.ok ()) (.ok entries) (fun _ => .ok ()) (some cs)).2 ↔
      ¬∃ target, some target ∈ entries ∧ target.getLast? = some c) := by
  constructor
  · intro lockRes u cands
    simp only [gcRun, collectReferenced_filter]
  · have hne : cs ≠ [] := by
      rintro rfl
      exact List.not_mem_nil c hc
    rw [gcRun_some_ok entries (fun _ => .ok ()) hne]
    rw [sweepWith_all_ok (fun _ => .ok ()) (fun a _ => rfl)]
    simp only [List.mem_cons]
    constructor
    · rintro (h | h | h)
      · simp at h
      · simp at h
      · rcases List.mem_map.mp h with ⟨a, ha, hea⟩
        have hac : a = c := by injection hea
        subst hac
        rcases List.mem_filter.mp ha with ⟨_, hdec⟩
        exact fun hex => of_decide_eq_true hdec (mem_collectReferenced.mpr hex)
    · intro hnex
      refine Or.inr (Or.inr (List.mem_map.mpr
        ⟨c, List.mem_filter.mpr ⟨List.mem_dedup.mpr hc, decide_eq_true ?_⟩, rfl⟩))
      exact fun hmem => hnex (mem_collectReferenced.mp hmem)

theorem gc_referenced_by_target_file_name_witness :
    (∀ (lockRes : Except GcErr Unit) (u : String → Except GcErr Unit)
        (cands : Option (List String)),
      gcRun lockRes (.ok ([some ["dirA", "aa"], none].filter Option.isSome)) u cands =
        gcRun lockRes (.ok [some ["dirA", "aa"], none]) u cands) ∧
    (GcEvent.uninstall "aa" ∈
        (gcRun (.ok ()) (.ok [some ["dirA", "aa"], none]) (fun _ => .ok ()) (some ["aa"])).2 ↔
      ¬∃ target, some target ∈ [some ["dirA", "aa"], none] ∧ target.getLast? = some "aa") :=
  gc_referenced_by_target_file_name [some ["dirA", "aa"], none] ["aa"] "aa" (by simp)

/-! ## Lemmas about the filesystem-state model -/

theorem lookupKey_setAssoc_self {α : Type} (k : String) (v : α) (l : List (String × α)) :
    lookupKey k (setAssoc k v l) = some v := by
  simp [setAssoc, lookupKey]

theorem eraseKey_of_lookupKey_none {α : Type} {k : String} :
    ∀ {l : List (String × α)}, lookupKey k l = none → eraseKey k l = l := by
  intro l h
  induction l with
  | nil => rfl
  | cons p ps ih =>
    rcases p with ⟨k', v⟩
    have hk : ¬k = k' := by
      intro hkk
      simp [lookupKey, hkk] at h
    have hps : lookupKey k ps = none := by
      simpa [lookupKey, hk] using h
    have hk' : k' ≠ k := fun hh => hk hh.symm
    simp only [eraseKey, List.filter_cons]
    rw [if_pos (by simp only [decide_eq_true_eq]; exact hk')]
    have hrec := ih hps
    simp only [eraseKey] at hrec
    rw [hrec]

theorem gcSweep_referenced {st : FsState} {c : String}
    (h : c ∈ st.links.map (fun p => p.2)) : gcSweep st [c] = (st, []) := by
  have hfil : List.filter (fun a => decide (a ∉ List.map (fun p => p.2) st.links)) [c] = [] := by
    rw [List.filter_cons, if_neg (by simp [h]), List.filter_nil]
  simp only [gcSweep, List.dedup_cons_of_not_mem (List.not_mem_nil c), List.dedup_nil]
  rw [if_neg (by simp), hfil]
  rfl

theorem gcSweep_unreferenced {st : FsState} {c : String}
    (h : c ∉ st.links.map (fun p => p.2)) :
    gcSweep st [c] = (⟨eraseKey c st.pool, st.links, st.markers⟩, [OpEvent.uninstall c]) := by
  have hfil : List.filter (fun a => decide (a ∉ List.map (fun p => p.2) st.links)) [c] = [c] := by
    rw [List.filter_cons, if_pos (by simp [h]), List.filter_nil]
  simp only [gcSweep, List.dedup_cons_of_not_mem (List.not_mem_nil c), List.dedup_nil]
  rw [if_neg (by simp), hfil]
  rfl

/-- The construction path of `Ctx::modify_components`: the link resolves,
the new identity's pool entry is absent, so the clone-and-edit runs,
the link is committed to the new entry and the old target is offered
to gc. -/
theorem modifyComponents_construct (target : String) (editRes : Except OpErr Unit)
    (st : FsState) (tc : String) (comps : List String) (add : Bool)
    (oldId : String) (t0 : IdentifiableToolchain)
    (hcomps : comps ≠ [])
    (hl : lookupKey (qualify_with_target target tc) st.links = some oldId)
    (hp : lookupKey oldId st.pool = some t0)
    (hm : lookupKey (qualify_with_target target tc) st.markers = none)
    (hnew : lookupKey
      (IdentifiableToolchain.id ⟨t0.rust_ver, newComponents target add comps t0.components⟩)
      st.pool = none)
    (hedit : editRes = .ok ()) :
    modifyComponents target editRes st tc comps add =
      (.ok (),
        (gcSweep
          ⟨(IdentifiableToolchain.id
                ⟨t0.rust_ver, newComponents target add comps t0.components⟩,
              (⟨t0.rust_ver, newComponents target add comps t0.components⟩ :
                IdentifiableToolchain)) :: st.pool,
            setAssoc (qualify_with_target target tc)
              (IdentifiableToolchain.id
                ⟨t0.rust_ver, newComponents target add comps t0.components⟩) st.links,
            st.markers⟩
          [oldId]).1,
        (gcSweep
          ⟨(IdentifiableToolchain.id
                ⟨t0.rust_ver, newComponents target add comps t0.components⟩,
              (⟨t0.rust_ver, newComponents target add comps t0.components⟩ :
                IdentifiableToolchain)) :: st.pool,
            setAssoc (qualify_with_target target tc)
              (IdentifiableToolchain.id
                ⟨t0.rust_ver, newComponents target add comps t0.components⟩) st.links,
            st.markers⟩
          [oldId]).2) := by
  subst hedit
  have hself : eraseKey (qualify_with_target target tc)
      ((qualify_with_target target tc,
          IdentifiableToolchain.id
            ⟨t0.rust_ver, newComponents target add comps t0.components⟩) :: st.markers) =
      st.markers := by
    simp only [eraseKey, List.filter_cons]
    rw [if_neg (by simp)]
    have h2 := eraseKey_of_lookupKey_none (l := st.markers) hm
    simp only [eraseKey] at h2
    rw [h2]
  simp only [modifyComponents, if_neg hcomps, hl, hp, hm, hnew, Option.isSome_none,
    Option.isSome_some, Bool.false_eq_true, if_false, hself]

/-- The reuse path of `Ctx::modify_components`: when the new identity's
pool entry already exists, the construction (and the edit oracle) is
skipped entirely and the link is just committed to the existing entry. -/
theorem modifyComponents_reuse (target : String) (editRes : Except OpErr Unit)
    (st : FsState) (tc : String) (comps : List String) (add : Bool)
    (oldId : String) (t0 u : IdentifiableToolchain)
    (hcomps : comps ≠ [])
    (hl : lookupKey (qualify_with_target target tc) st.links = some oldId)
    (hp : lookupKey oldId st.pool = some t0)
    (hm : lookupKey (qualify_with_target target tc) st.markers = none)
    (hnew : lookupKey
      (IdentifiableToolchain.id ⟨t0.rust_ver, newComponents target add comps t0.components⟩)
      st.pool = some u) :
    modifyComponents target editRes st tc comps add =
      (.ok (),
        (gcSweep
          ⟨st.pool,
            setAssoc (qualify_with_target target tc)
              (IdentifiableToolchain.id
                ⟨t0.rust_ver, newComponents target add comps t0.components⟩) st.links,
            st.markers⟩
          [oldId]).1,
        (gcSweep
          ⟨st.pool,
            setAssoc (qualify_with_target target tc)
              (IdentifiableToolchain.id
                ⟨t0.rust_ver, newComponents target add comps t0.components⟩) st.links,
            st.markers⟩
          [oldId]).2) := by
  have hself : eraseKey (qualify_with_target target tc)
      ((qualify_with_target target tc,
          IdentifiableToolchain.id
            ⟨t0.rust_ver, newComponents target add comps t0.components⟩) :: st.markers) =
      st.markers := by
    simp only [eraseKey, List.filter_cons]
    rw [if_neg (by simp)]
    have h2 := eraseKey_of_lookupKey_none (l := st.markers) hm
    simp only [eraseKey] at h2
    rw [h2]
  simp only [modifyComponents, if_neg hcomps, hl, hp, hm, hnew, Option.isSome_none,
    Option.isSome_some, Bool.false_eq_true, if_false, if_true, hself]

theorem gcSweep_links (st : FsState) (cands : List String) :
    (gcSweep st cands).1.links = st.links := by
  rw [gcSweep]
  split
  · rfl
  · rfl

theorem gcSweep_markers (st : FsState) (cands : List String) :
    (gcSweep st cands).1.markers = st.markers := by
  rw [gcSweep]
  split
  · rfl
  · rfl

theorem cloneEdit_not_mem_gcSweep (st : FsState) (cands : List String) :
    OpEvent.cloneEdit ∉ (gcSweep st cands).2 := by
  rw [gcSweep]
  split
  · simp
  · intro h
    simp only at h
    rcases List.mem_map.mp h with ⟨a, _, hea⟩
    cases hea

/-! ## The claims about the transaction protocol -/

/-- C6: if the external materialization fails during Add or a component
mutation (the install or the clone-and-edit invocation returns an error),
the operation returns that error and the link at its canonical path is
not touched: the previous binding, or its absence, is preserved exactly
(the `links` map is unchanged, as is the pool), with only the orphaned
in-flight marker left behind. -/
theorem materialization_failure_preserves_link :
    (∀ (target : String) (rt : IdentifiableToolchain) (e : OpErr) (st : FsState)
        (tc : String) (src : Option String),
      lookupKey (qualify_with_target target tc) st.markers = none →
      lookupKey rt.id st.pool = none →
      addRun target (.ok rt) (.error e) st tc src =
        (.error e,
          ⟨st.pool, st.links, (qualify_with_target target tc, rt.id) :: st.markers⟩,
          [.install])) ∧
    (∀ (target : String) (e : OpErr) (st : FsState) (tc : String) (comps : List String)
        (add : Bool) (oldId : String) (t0 : IdentifiableToolchain),
      comps ≠ [] →
      lookupKey (qualify_with_target target tc) st.links = some oldId →
      lookupKey oldId st.pool = some t0 →
      lookupKey (qualify_with_target target tc) st.markers = none →
      lookupKey
        (IdentifiableToolchain.id ⟨t0.rust_ver, newComponents target add comps t0.components⟩)
        st.pool = none →
      modifyComponents target (.error e) st tc comps add =
        (.error e,
          ⟨st.pool, st.links,
            (qualify_with_target target tc,
              IdentifiableToolchain.id
                ⟨t0.rust_ver, newComponents target add comps t0.components⟩) :: st.markers⟩,
          [.cloneEdit])) := by
  constructor
  · intro target rt e st tc src hm hp
    simp only [addRun, hm, hp, Option.isSome_none, Bool.false_eq_true, if_false]
  · intro target e st tc comps add oldId t0 hcomps hl hp hm hnew
    simp only [modifyComponents, if_neg hcomps, hl, hp, hm, hnew, Option.isSome_none,
      Bool.false_eq_true, if_false]

theorem materialization_failure_preserves_link_witness :
    (addRun "tt" (.ok ⟨"1.0", []⟩) (.error .externalFailed) ⟨[], [], []⟩ "v" none =
      (.error .externalFailed,
        ⟨[], [],
          (qualify_with_target "tt" "v",
            IdentifiableToolchain.id ⟨"1.0", []⟩) :: ([] : List (String × String))⟩,
        [.install])) ∧
    (modifyComponents "tt" (.error .externalFailed)
        ⟨[("old", ⟨"1.0", []⟩)], [(qualify_with_target "tt" "v", "old")], []⟩ "v" ["c"] true =
      (.error .externalFailed,
        ⟨[("old", ⟨"1.0", []⟩)], [(qualify_with_target "tt" "v", "old")],
          [(qualify_with_target "tt" "v",
            IdentifiableToolchain.id
              ⟨"1.0", newComponents "tt" true ["c"] ([] : List String)⟩)]⟩,
        [.cloneEdit])) :=
  ⟨materialization_failure_preserves_link.1 "tt" ⟨"1.0", []⟩ .externalFailed ⟨[], [], []⟩
      "v" none rfl rfl,
    materialization_failure_preserves_link.2 "tt" .externalFailed
      ⟨[("old", ⟨"1.0", []⟩)], [(qualify_with_target "tt" "v", "old")], []⟩ "v" ["c"] true
      "old" ⟨"1.0", []⟩ (by simp) rfl rfl rfl (by decide)⟩

theorem setAssoc_pair_self {α : Type} (k : String) (v w : α) :
    setAssoc k v [(k, w)] = [(k, v)] := by
  simp [setAssoc, eraseKey, List.filter_cons]

theorem comp_roundtrip_aux (target tc x : String) (t0 : IdentifiableToolchain)
    (hx : qualify_with_target target x ∉ t0.components) :
    (modifyComponents target (.ok ())
        ⟨[(t0.id, t0)], [(qualify_with_target target tc, t0.id)], []⟩ tc [x] true).1 =
      .ok () ∧
    (modifyComponents target (.ok ())
        (modifyComponents target (.ok ())
          ⟨[(t0.id, t0)], [(qualify_with_target target tc, t0.id)], []⟩ tc [x] true).2.1
        tc [x] false).1 = .ok () ∧
    lookupKey (qualify_with_target target tc)
        (modifyComponents target (.ok ())
          (modifyComponents target (.ok ())
            ⟨[(t0.id, t0)], [(qualify_with_target target tc, t0.id)], []⟩ tc [x] true).2.1
          tc [x] false).2.1.links = some t0.id ∧
    ∀ p ∈ (modifyComponents target (.ok ())
        (modifyComponents target (.ok ())
          ⟨[(t0.id, t0)], [(qualify_with_target target tc, t0.id)], []⟩ tc [x] true).2.1
        tc [x] false).2.1.pool,
      p.2 ≠ (⟨t0.rust_ver, sinsert (qualify_with_target target x) t0.components⟩ :
        IdentifiableToolchain) := by
  set qx := qualify_with_target target x with hqxdef
  set link := qualify_with_target target tc with hlinkdef
  set t1 : IdentifiableToolchain := ⟨t0.rust_ver, sinsert qx t0.components⟩ with ht1def
  have hqx : newComponents target true [x] t0.components = sinsert qx t0.components := rfl
  have ht0ne : t0 ≠ t1 := by
    intro hh
    have : t0.components = t1.components := by rw [hh]
    simp only [ht1def] at this
    exact sinsert_ne_self hx this.symm
  by_cases hcol : t1.id = t0.id
  · -- hash collision between the X-added set and the original: both steps reuse
    have e1 := modifyComponents_reuse target (.ok ())
      ⟨[(t0.id, t0)], [(link, t0.id)], []⟩ tc [x] true t0.id t0 t0
      (by simp) (by simp [lookupKey]) (by simp [lookupKey]) rfl
      (by
        show lookupKey (IdentifiableToolchain.id
          ⟨t0.rust_ver, sinsert qx t0.components⟩) [(t0.id, t0)] = some t0
        rw [show (⟨t0.rust_ver, sinsert qx t0.components⟩ : IdentifiableToolchain) = t1 from rfl,
          hcol]
        simp [lookupKey])
    rw [show (⟨t0.rust_ver, newComponents target true [x] t0.components⟩ :
      IdentifiableToolchain) = t1 from rfl] at e1
    rw [hcol, setAssoc_pair_self] at e1
    rw [gcSweep_referenced (by simp)] at e1
    have e2 := modifyComponents_reuse target (.ok ())
      ⟨[(t0.id, t0)], [(link, t0.id)], []⟩ tc [x] false t0.id t0 t0
      (by simp) (by simp [lookupKey]) (by simp [lookupKey]) rfl
      (by
        show lookupKey (IdentifiableToolchain.id
          ⟨t0.rust_ver, serase qx t0.components⟩) [(t0.id, t0)] = some t0
        rw [serase_of_not_mem hx]
        simp [lookupKey])
    rw [show (⟨t0.rust_ver, newComponents target false [x] t0.components⟩ :
      IdentifiableToolchain) = t0 from by
        show (⟨t0.rust_ver, serase qx t0.components⟩ : IdentifiableToolchain) = t0
        rw [serase_of_not_mem hx]] at e2
    rw [setAssoc_pair_self] at e2
    rw [gcSweep_referenced (by simp)] at e2
    have hr1 : (modifyComponents target (.ok ())
        ⟨[(t0.id, t0)], [(link, t0.id)], []⟩ tc [x] true).1 = .ok () := by rw [e1]
    have hs1 := congrArg (fun r => r.2.1) e1
    simp only [] at hs1
    have he2 := (congrArg
      (fun s => modifyComponents target (.ok ()) s tc [x] false) hs1).trans e2
    refine ⟨hr1, by rw [he2], by rw [he2]; simp [lookupKey], ?_⟩
    intro p hp
    rw [he2] at hp
    simp only [List.mem_singleton] at hp
    subst hp
    exact ht0ne
  · -- no collision: construct the new entry, gc the old, then rebuild the original
    have e1 := modifyComponents_construct target (.ok ())
      ⟨[(t0.id, t0)], [(link, t0.id)], []⟩ tc [x] true t0.id t0
      (by simp) (by simp [lookupKey]) (by simp [lookupKey]) rfl
      (by
        show lookupKey (IdentifiableToolchain.id
          ⟨t0.rust_ver, sinsert qx t0.components⟩) [(t0.id, t0)] = none
        rw [show (⟨t0.rust_ver, sinsert qx t0.components⟩ : IdentifiableToolchain) = t1 from rfl]
        simp [lookupKey, hcol]) rfl
    rw [show (⟨t0.rust_ver, newComponents target true [x] t0.components⟩ :
      IdentifiableToolchain) = t1 from rfl] at e1
    rw [setAssoc_pair_self] at e1
    rw [gcSweep_unreferenced (by
      simp only [List.map_cons, List.map_nil, List.mem_singleton]
      exact fun hh => hcol hh.symm)] at e1
    have her : eraseKey t0.id [(t1.id, t1), (t0.id, t0)] = [(t1.id, t1)] := by
      simp only [eraseKey, List.filter_cons]
      rw [if_pos (by simp only [decide_eq_true_eq]; exact hcol),
        if_neg (by simp), List.filter_nil]
    rw [her] at e1
    have ht2 : (⟨t1.rust_ver, newComponents target false [x] t1.components⟩ :
        IdentifiableToolchain) = t0 := by
      show (⟨t0.rust_ver, serase qx (sinsert qx t0.components)⟩ : IdentifiableToolchain) = t0
      rw [serase_sinsert hx]
    have e2 := modifyComponents_construct target (.ok ())
      ⟨[(t1.id, t1)], [(link, t1.id)], []⟩ tc [x] false t1.id t1
      (by simp) (by simp [lookupKey]) (by simp [lookupKey]) rfl
      (by
        rw [ht2]
        simp only [lookupKey]
        rw [if_neg (fun hh => hcol hh.symm)]) rfl
    rw [ht2] at e2
    rw [setAssoc_pair_self] at e2
    rw [gcSweep_unreferenced (by
      simp only [List.map_cons, List.map_nil, List.mem_singleton]
      exact hcol)] at e2
    have her2 : eraseKey t1.id [(t0.id, t0), (t1.id, t1)] = [(t0.id, t0)] := by
      simp only [eraseKey, List.filter_cons]
      rw [if_pos (by simp only [decide_eq_true_eq]; exact fun hh => hcol hh.symm),
        if_neg (by simp), List.filter_nil]
    rw [her2] at e2
    have hr1 : (modifyComponents target (.ok ())
        ⟨[(t0.id, t0)], [(link, t0.id)], []⟩ tc [x] true).1 = .ok () := by rw [e1]
    have hs1 := congrArg (fun r => r.2.1) e1
    simp only [] at hs1
    have he2 := (congrArg
      (fun s => modifyComponents target (.ok ()) s tc [x] false) hs1).trans e2
    refine ⟨hr1, by rw [he2], by rw [he2]; simp [lookupKey], ?_⟩
    intro p hp
    rw [he2] at hp
    simp only [List.mem_singleton] at hp
    subst hp
    exact ht0ne

/-- C3 (amended): for a link whose pool entry is well-formed (named by
its content's identity) and a component X not already present after
target qualification, running comp-add X then comp-rm X on the link
returns the link's target identity to exactly its pre-add value, and
after the final gc no pool entry holds the intermediate X-added
toolchain content; moreover whenever the new identity's pool entry
already exists, the mutator skips construction (the clone-and-edit
collaborator is never invoked) and repoints the link to the existing
entry. -/
theorem comp_add_rm_roundtrip (target tc x : String) (t0 : IdentifiableToolchain)
    (hx : qualify_with_target target x ∉ t0.components) :
    ((modifyComponents target (.ok ())
        ⟨[(t0.id, t0)], [(qualify_with_target target tc, t0.id)], []⟩ tc [x] true).1 =
        .ok () ∧
      (modifyComponents target (.ok ())
          (modifyComponents target (.ok ())
            ⟨[(t0.id, t0)], [(qualify_with_target target tc, t0.id)], []⟩ tc [x] true).2.1
          tc [x] false).1 = .ok () ∧
      lookupKey (qualify_with_target target tc)
          (modifyComponents target (.ok ())
            (modifyComponents target (.ok ())
              ⟨[(t0.id, t0)], [(qualify_with_target target tc, t0.id)], []⟩ tc [x] true).2.1
            tc [x] false).2.1.links = some t0.id ∧
      ∀ p ∈ (modifyComponents target (.ok ())
          (modifyComponents target (.ok ())
            ⟨[(t0.id, t0)], [(qualify_with_target target tc, t0.id)], []⟩ tc [x] true).2.1
          tc [x] false).2.1.pool,
        p.2 ≠ (⟨t0.rust_ver, sinsert (qualify_with_target target x) t0.components⟩ :
          IdentifiableToolchain)) ∧
    (∀ (st : FsState) (tc2 : String) (comps : List String) (add : Bool) (oldId : String)
        (u t0' : IdentifiableToolchain) (editRes : Except OpErr Unit),
      comps ≠ [] →
      lookupKey (qualify_with_target target tc2) st.links = some oldId →
      lookupKey oldId st.pool = some t0' →
      lookupKey (qualify_with_target target tc2) st.markers = none →
      lookupKey (IdentifiableToolchain.id
          ⟨t0'.rust_ver, newComponents target add comps t0'.components⟩) st.pool = some u →
      (modifyComponents target editRes st tc2 comps add).1 = .ok () ∧
      OpEvent.cloneEdit ∉ (modifyComponents target editRes st tc2 comps add).2.2 ∧
      lookupKey (qualify_with_target target tc2)
          (modifyComponents target editRes st tc2 comps add).2.1.links =
        some (IdentifiableToolchain.id
          ⟨t0'.rust_ver, newComponents target add comps t0'.components⟩)) := by
  refine ⟨comp_roundtrip_aux target tc x t0 hx, ?_⟩
  intro st tc2 comps add oldId u t0' editRes hc hl hp hm hnew
  have er := modifyComponents_reuse target editRes st tc2 comps add oldId t0' u hc hl hp hm hnew
  refine ⟨by rw [er], ?_, ?_⟩
  · rw [er]
    exact cloneEdit_not_mem_gcSweep _ _
  · rw [er]
    show lookupKey (qualify_with_target target tc2) (gcSweep _ [oldId]).1.links = _
    rw [gcSweep_links]
    exact lookupKey_setAssoc_self _ _ _

/-- C3 counterexample to the unconditional claim: when X (qualified:
`c-tt`) is already a component of the link's target, comp-add is a no-op
on the identity but comp-rm then moves the link to the X-removed
identity, so the final target identity differs from the pre-add value. -/
theorem comp_add_rm_roundtrip_counterexample :
    lookupKey "v-tt"
        (modifyComponents "tt" (.ok ())
          (modifyComponents "tt" (.ok ())
            ⟨[(IdentifiableToolchain.id ⟨"1.0", ["c-tt"]⟩,
                (⟨"1.0", ["c-tt"]⟩ : IdentifiableToolchain))],
              [("v-tt", IdentifiableToolchain.id ⟨"1.0", ["c-tt"]⟩)], []⟩
            "v" ["c"] true).2.1
          "v" ["c"] false).2.1.links ≠
      some (IdentifiableToolchain.id ⟨"1.0", ["c-tt"]⟩) := by
  decide

theorem comp_add_rm_roundtrip_witness :
    ((modifyComponents "tt" (.ok ())
        ⟨[((⟨"1.0", []⟩ : IdentifiableToolchain).id, ⟨"1.0", []⟩)],
          [(qualify_with_target "tt" "v", (⟨"1.0", []⟩ : IdentifiableToolchain).id)], []⟩
        "v" ["c"] true).1 = .ok () ∧
      (modifyComponents "tt" (.ok ())
          (modifyComponents "tt" (.ok ())
            ⟨[((⟨"1.0", []⟩ : IdentifiableToolchain).id, ⟨"1.0", []⟩)],
              [(qualify_with_target "tt" "v", (⟨"1.0", []⟩ : IdentifiableToolchain).id)], []⟩
            "v" ["c"] true).2.1
          "v" ["c"] false).1 = .ok () ∧
      lookupKey (qualify_with_target "tt" "v")
          (modifyComponents "tt" (.ok ())
            (modifyComponents "tt" (.ok ())
              ⟨[((⟨"1.0", []⟩ : IdentifiableToolchain).id, ⟨"1.0", []⟩)],
                [(qualify_with_target "tt" "v", (⟨"1.0", []⟩ : IdentifiableToolchain).id)], []⟩
              "v" ["c"] true).2.1
            "v" ["c"] false).2.1.links = some (⟨"1.0", []⟩ : IdentifiableToolchain).id ∧
      ∀ p ∈ (modifyComponents "tt" (.ok ())
          (modifyComponents "tt" (.ok ())
            ⟨[((⟨"1.0", []⟩ : IdentifiableToolchain).id, ⟨"1.0", []⟩)],
              [(qualify_with_target "tt" "v", (⟨"1.0", []⟩ : IdentifiableToolchain).id)], []⟩
            "v" ["c"] true).2.1
          "v" ["c"] false).2.1.pool,
        p.2 ≠ (⟨"1.0", sinsert (qualify_with_target "tt" "c") []⟩ : IdentifiableToolchain)) ∧
    (∀ (st : FsState) (tc2 : String) (comps : List String) (add : Bool) (oldId : String)
        (u t0' : IdentifiableToolchain) (editRes : Except OpErr Unit),
      comps ≠ [] →
      lookupKey (qualify_with_target "tt" tc2) st.links = some oldId →
      lookupKey oldId st.pool = some t0' →
      lookupKey (qualify_with_target "tt" tc2) st.markers = none →
      lookupKey (IdentifiableToolchain.id
          ⟨t0'.rust_ver, newComponents "tt" add comps t0'.components⟩) st.pool = some u →
      (modifyComponents "tt" editRes st tc2 comps add).1 = .ok () ∧
      OpEvent.cloneEdit ∉ (modifyComponents "tt" editRes st tc2 comps add).2.2 ∧
      lookupKey (qualify_with_target "tt" tc2)
          (modifyComponents "tt" editRes st tc2 comps add).2.1.links =
        some (IdentifiableToolchain.id
          ⟨t0'.rust_ver, newComponents "tt" add comps t0'.components⟩)) :=
  comp_add_rm_roundtrip "tt" "v" "c" ⟨"1.0", []⟩ (by decide)


theorem xor_shift_lt {a : Nat} (ha : a < M64) (k : Nat) : xor64 a (a >>> k) < M64 := by
  have hm : M64 = 2 ^ 64 := by norm_num [M64]
  rw [hm] at ha ⊢
  refine Nat.xor_lt_two_pow ha (lt_of_le_of_lt ?_ ha)
  rw [Nat.shiftRight_eq_div_pow]
  exact Nat.div_le_self _ _

theorem xxAvalanche_lt (h : Nat) : xxAvalanche h < M64 := by
  rw [xxAvalanche]
  apply xor_shift_lt
  exact Nat.mod_lt _ (by norm_num [M64])

theorem xxh64_lt (seed : Nat) (input : List Nat) : xxh64 seed input < M64 := by
  rw [xxh64]
  apply xxAvalanche_lt

theorem digits32Aux_le :
    ∀ (m fuel n : Nat) (acc : List Nat), n < 32 ^ m → n ≤ fuel →
      (digits32Aux fuel n acc).length ≤ m + acc.length := by
  intro m
  induction m with
  | zero =>
    intro fuel n acc hn _
    have hn0 : n = 0 := by simpa using hn
    subst hn0
    cases fuel
    · simp [digits32Aux]
    · simp [digits32Aux]
  | succ m ih =>
    intro fuel n acc hn hf
    cases fuel with
    | zero =>
      have hn0 : n = 0 := by omega
      simp [digits32Aux]
    | succ f =>
      by_cases h0 : n = 0
      · simp [digits32Aux, h0]
      · rw [digits32Aux, if_neg h0]
        have hdiv : n / 32 < 32 ^ m := by
          apply (Nat.div_lt_iff_lt_mul (by norm_num : (0:Nat) < 32)).mpr
          calc n < 32 ^ (m + 1) := hn
            _ = 32 ^ m * 32 := pow_succ 32 m
        have hfle : n / 32 ≤ f := by
          have := Nat.div_lt_self (Nat.pos_of_ne_zero h0) (by norm_num : (1:Nat) < 32)
          omega
        have hr := ih f (n / 32) (n % 32 :: acc) hdiv hfle
        simp only [List.length_cons] at hr
        omega

theorem digits32_le {n m : Nat} (h : n < 32 ^ m) : (digits32 n).length ≤ m := by
  have := digits32Aux_le m n n [] h le_rfl
  simpa [digits32] using this

theorem digits32Aux_mem :
    ∀ (fuel n : Nat) (acc : List Nat), (∀ d ∈ acc, d < 32) →
      ∀ d ∈ digits32Aux fuel n acc, d < 32 := by
  intro fuel
  induction fuel with
  | zero => intro n acc hacc d hd; exact hacc d hd
  | succ f ih =>
    intro n acc hacc d hd
    rw [digits32Aux] at hd
    split at hd
    · exact hacc d hd
    · refine ih (n / 32) (n % 32 :: acc) ?_ d hd
      intro a ha
      rcases List.mem_cons.mp ha with rfl | ha
      · exact Nat.mod_lt _ (by norm_num)
      · exact hacc a ha

theorem digits32_mem {n : Nat} : ∀ d ∈ digits32 n, d < 32 :=
  digits32Aux_mem n n [] (by simp)

theorem beVal_lt : ∀ (bs : List Nat), (∀ b ∈ bs, b < 256) → beVal bs < 256 ^ bs.length := by
  intro bs
  induction bs with
  | nil => intro _; simp [beVal]
  | cons b bs ih =>
    intro hb
    have hbv := ih (fun x hx => hb x (List.mem_cons_of_mem b hx))
    have hblt := hb b (List.mem_cons_self b bs)
    calc beVal (b :: bs) = b * 256 ^ bs.length + beVal bs := rfl
      _ < b * 256 ^ bs.length + 256 ^ bs.length := by omega
      _ = (b + 1) * 256 ^ bs.length := by ring
      _ ≤ 256 * 256 ^ bs.length := Nat.mul_le_mul_right _ (by omega)
      _ = 256 ^ (b :: bs).length := by rw [List.length_cons, pow_succ]; ring

theorem baseXEncode_length_le :
    ∀ (bs : List Nat), (∀ b ∈ bs, b < 256) →
      (baseXEncode bs).length ≤ (8 * bs.length + 4) / 5 := by
  intro bs
  induction bs with
  | nil =>
    intro _
    simp [baseXEncode, leadingZeroCount, beVal, digits32, digits32Aux]
  | cons b bs ih =>
    intro hb
    have hbs := ih (fun x hx => hb x (List.mem_cons_of_mem b hx))
    by_cases hb0 : b = 0
    · subst hb0
      have hval : beVal (0 :: bs) = beVal bs := by simp [beVal]
      have hlzc : leadingZeroCount (0 :: bs) = leadingZeroCount bs + 1 := by
        simp [leadingZeroCount]
      have hstep : (baseXEncode (0 :: bs)).length = (baseXEncode bs).length + 1 := by
        simp only [baseXEncode, hval, hlzc, List.length_append, List.length_replicate]
        omega
      rw [hstep, List.length_cons]
      omega
    · have hlzc : leadingZeroCount (b :: bs) = 0 := by simp [leadingZeroCount, hb0]
      have hstep : (baseXEncode (b :: bs)).length = (digits32 (beVal (b :: bs))).length := by
        simp [baseXEncode, hlzc]
      rw [hstep]
      apply digits32_le
      calc beVal (b :: bs) < 256 ^ (b :: bs).length := beVal_lt _ hb
        _ = 2 ^ (8 * (b :: bs).length) := by
          rw [show (256 : Nat) = 2 ^ 8 from rfl, ← pow_mul]
        _ ≤ 2 ^ (5 * ((8 * (b :: bs).length + 4) / 5)) :=
          Nat.pow_le_pow_right (by norm_num) (by omega)
        _ = 32 ^ ((8 * (b :: bs).length + 4) / 5) := by
          rw [show (32 : Nat) = 2 ^ 5 from rfl, ← pow_mul]

theorem toBEBytes_lt (n : Nat) : ∀ b ∈ toBEBytes n, b < 256 := by
  intro b hb
  simp only [toBEBytes, List.mem_cons, List.not_mem_nil, or_false] at hb
  rcases hb with h|h|h|h|h|h|h|h <;> subst h <;> omega

theorem baseXEncode_toBEBytes_le (h : Nat) : (baseXEncode (toBEBytes h)).length ≤ 13 := by
  have := baseXEncode_length_le (toBEBytes h) (toBEBytes_lt h)
  simpa [toBEBytes] using this

theorem hashEncode_length (h : Nat) : (hashEncode h).length = 13 := by
  have h13 := baseXEncode_toBEBytes_le h
  show (List.replicate (13 - (baseXEncode (toBEBytes h)).length) '0' ++
    baseXEncode (toBEBytes h)).length = 13
  rw [List.length_append, List.length_replicate]
  omega

theorem hashEncode_chars (h : Nat) : ∀ c ∈ (hashEncode h).data, c ∈ hashAlphabet := by
  intro c hc
  have hc2 : c ∈ List.replicate (13 - (baseXEncode (toBEBytes h)).length) '0' ++
      baseXEncode (toBEBytes h) := hc
  rcases List.mem_append.mp hc2 with h1 | h2
  · rw [List.eq_of_mem_replicate h1]
    decide
  · rcases List.mem_append.mp h2 with h3 | h4
    · rw [List.eq_of_mem_replicate h3]
      decide
    · rcases List.mem_map.mp h4 with ⟨d, hd, rfl⟩
      have hd32 : d < 32 := digits32_mem d hd
      have hlen : d < hashAlphabet.length := by
        have : hashAlphabet.length = 32 := rfl
        omega
      rw [List.getD_eq_getElem hashAlphabet '0' hlen]
      exact List.getElem_mem hlen
/-- C5: for every toolchain, `id()` returns
`"{prefix}-{enc(h_version)}-{enc(h_components)}"`, where the prefix is the
leading digit/dot run of `rust_ver` (the literal `"unknown"` when that run
is empty), `h_version` is the XXH64 of the version bytes and
`h_components` the XXH64 of the `Hash`-protocol encoding of the component
set, both with seed `SEED`; each hash encoding is exactly 13 symbols,
is the base-32 digit string left-padded with `0` to width 13, and draws
its symbols from the 32-symbol alphabet consisting of the digits `0`-`9`
and the lowercase letters excluding `i`, `l`, `o` and `g`. -/
theorem id_format (t : IdentifiableToolchain) (h : Nat) :
    IdentifiableToolchain.id t =
      (if shortVer t.rust_ver = "" then "unknown" else shortVer t.rust_ver) ++ "-" ++
        hashEncode (xxh64 SEED (strBytes t.rust_ver)) ++ "-" ++
        hashEncode (xxh64 SEED (leBytes8 t.components.length ++
          (t.components.map (fun s => strBytes s ++ [255])).flatten)) ∧
    (hashEncode h).length = 13 ∧
    (∀ c ∈ (hashEncode h).data, c ∈ hashAlphabet) ∧
    (hashEncode h).data =
      List.replicate (13 - (baseXEncode (toBEBytes h)).length) '0' ++
        baseXEncode (toBEBytes h) ∧
    hashAlphabet.length = 32 ∧
    (∀ c ∈ hashAlphabet, ('0' ≤ c ∧ c ≤ '9') ∨
      ('a' ≤ c ∧ c ≤ 'z' ∧ c ∉ (['i', 'l', 'o', 'g'] : List Char))) := by
  refine ⟨?_, hashEncode_length h, hashEncode_chars h, rfl, rfl, by decide⟩
  rw [IdentifiableToolchain.id]
  by_cases hsv : shortVer t.rust_ver = ""
  · rw [if_pos hsv, if_pos hsv]
    apply String.ext
    simp [String.data_append]
  · rw [if_neg hsv, if_neg hsv]

/-- C4: the identity is deterministic and order/duplicate insensitive:
collecting any two component lists with the same members (in any order,
with any duplicates) into the `BTreeSet` yields the same identity string;
and two `IdentifiableToolchain` values (in canonical `BTreeSet`
representation) are equal iff their `rust_ver` strings are equal and
their component sets have the same members. -/
theorem identity_deterministic_set_semantics :
    (∀ (ver : String) (l1 l2 : List String), (∀ a, a ∈ l1 ↔ a ∈ l2) →
      identityOfList ver l1 = identityOfList ver l2) ∧
    (∀ t1 t2 : IdentifiableToolchain, strOrdered t1.components → strOrdered t2.components →
      (t1 = t2 ↔ (t1.rust_ver = t2.rust_ver ∧
        ∀ a, a ∈ t1.components ↔ a ∈ t2.components))) := by
  constructor
  · intro ver l1 l2 hm
    have hset : mkSet l1 = mkSet l2 :=
      strOrdered_ext (strOrdered_mkSet l1) (strOrdered_mkSet l2)
        (fun a => by rw [mem_mkSet, mem_mkSet]; exact hm a)
    rw [identityOfList, identityOfList, hset]
  · intro t1 t2 h1 h2
    constructor
    · intro he
      subst he
      exact ⟨rfl, fun a => Iff.rfl⟩
    · rintro ⟨hv, hm⟩
      cases t1
      cases t2
      simp only at hv hm h1 h2 ⊢
      rw [hv, strOrdered_ext h1 h2 hm]

theorem identity_deterministic_set_semantics_witness :
    identityOfList "1.81.0" ["rustc", "cargo", "cargo"] =
      identityOfList "1.81.0" ["cargo", "rustc"] ∧
    ((⟨"1.81.0", ["cargo", "rustc"]⟩ : IdentifiableToolchain) =
        (⟨"1.81.0", ["cargo", "rustc"]⟩ : IdentifiableToolchain) ↔
      (("1.81.0" : String) = "1.81.0" ∧
        ∀ a, a ∈ (["cargo", "rustc"] : List String) ↔
          a ∈ (["cargo", "rustc"] : List String))) :=
  ⟨identity_deterministic_set_semantics.1 "1.81.0" _ _
      (fun a => by simp [List.mem_cons]; tauto),
    identity_deterministic_set_semantics.2 _ _ (by decide) (by decide)⟩

/-- C9 counterexample: the `main.rs` iteration of the transaction code
stages its in-flight marker with `set_extension("tmp")`, which replaces
the text after the last dot instead of appending; on the link name
`"1.81.0-x86_64-unknown-linux-gnu"` it produces `"1.81.tmp"`, not equal
to the `with_tmp` result `"1.81.0-x86_64-unknown-linux-gnu.tmp"`. -/
theorem marker_set_extension_counterexample :
    mainInFlight "1.81.0-x86_64-unknown-linux-gnu" = "1.81.tmp" ∧
    mainInFlight "1.81.0-x86_64-unknown-linux-gnu" ≠
      with_tmp "1.81.0-x86_64-unknown-linux-gnu" := by
  constructor
  · decide
  · decide

/-- C9 amended: `with_tmp` (used by `lib.rs`) always appends the fixed
suffix `".tmp"` to the whole file name; the `main.rs` staging path
(`set_extension("tmp")`) produces `name ++ ".tmp"` exactly when `name`
has no dot after its first character, i.e. no replaceable extension. -/
theorem marker_path_amended (p name : String) :
    with_tmp p = p ++ ".tmp" ∧
    (mainInFlight name = name ++ ".tmp" ↔ '.' ∉ name.data.drop 1) := by
  refine ⟨rfl, ?_⟩
  constructor
  · intro h
    by_contra hdot
    have hmem : '.' ∈ name.data := List.mem_of_mem_drop hdot
    have hne : name.data.reverse.dropWhile (fun c => decide (c ≠ '.')) ≠ [] := by
      intro hnil
      have := List.dropWhile_eq_nil_iff.mp hnil '.' (List.mem_reverse.mpr hmem)
      simp at this
    have hlen1 : (name.data.reverse.dropWhile (fun c => decide (c ≠ '.'))).length ≤
        name.data.length := by
      have hsub :=
        (List.dropWhile_sublist (p := fun c => decide (c ≠ '.')) (l := name.data.reverse)).length_le
      simpa using hsub
    have hlen2 : 1 ≤ (name.data.reverse.dropWhile (fun c => decide (c ≠ '.'))).length := by
      have := List.length_pos.mpr hne
      omega
    rw [mainInFlight, rustSetExtension, if_pos hdot] at h
    have hdata := congrArg String.data h
    simp only [String.data_append] at hdata
    have hlen := congrArg List.length hdata
    simp only [List.length_append, List.length_reverse, List.length_drop,
      List.length_cons, List.length_nil] at hlen
    omega
  · intro hdot
    rw [mainInFlight, rustSetExtension, if_neg hdot]
    apply String.ext
    simp [String.data_append]
end Rynzland
